import Mathlib

/-!
Verification of the Device Log Expectation Engine described by the
specification of the esp_jrnl test harness.  The repository's own files
(`pytest_esp_jrnl_example_basic.py`, `pytest_esp_jrnl_basic.py`) are thin
call sites: they declare ordered lists of exact-line expectations (resp. a
unity-result wait) against a device session.  The engine itself (Line
Reader, Expectation Matcher, Unity Result Parser, Scenario Runner) is not
part of the given sources, so it is modelled here from the specification's
component design, and the concrete scenarios are taken verbatim from the
two scripts.

Lines are modelled post-decode as lists of characters. -/

/-- A decoded text line (post-decode character content). -/
abbrev Line := List Char

/-- Character content of a string literal. -/
def chars (s : String) : Line := s.data

/- ## Line terminator stripping and exact-line matching (spec 4.2)

Modelled from the spec: the `exact-line` predicate of the Expectation
Matcher compares the line, with only its line terminator stripped, against
the expected literal; no other trimming or normalization. -/

/-- Drop a single leading line terminator from a REVERSED character list:
a reversed `"\r\n"`, or a lone `"\n"` or `"\r"`. -/
def dropTermRev (l : List Char) : List Char :=
  match l with
  | c :: rest =>
    if c = '\n' then
      match rest with
      | c2 :: rest2 => if c2 = '\r' then rest2 else rest
      | [] => rest
    else if c = '\r' then rest else l
  | [] => []

/-- Modelled from the spec: strip exactly the trailing line terminator
(`"\n"`, `"\r\n"` or `"\r"`) of a line, leaving all interior content
untouched. -/
def stripTerminator (l : Line) : Line := (dropTermRev l.reverse).reverse

/-- Modelled from the spec: the `exact-line` match predicate — byte-for-byte
(post-decode) equality with the expected literal after terminator
stripping. -/
def matchesExact (line lit : Line) : Bool := decide (stripTerminator line = lit)

/- ## Expectation Matcher (spec 4.2)

Modelled from the spec: `await_expectation` repeatedly pulls lines from the
session, discarding the ones that do not match, and returns at the first
match with the count of skipped lines; if the stream is exhausted before a
match (end of stream / deadline), it fails with the number of lines seen.
For a fixture whose data has fully arrived, the session presents exactly
its list of decoded lines, which is how streams are represented here. -/

inductive MatchResult where
  | matched (skipped : Nat) (line : Line) (rest : List Line)
  | failed (seen : Nat)
deriving DecidableEq

def awaitExpectation (lit : Line) : List Line → MatchResult
  | [] => .failed 0
  | l :: ls =>
    if matchesExact l lit then .matched 0 l ls
    else
      match awaitExpectation lit ls with
      | .matched k m r => .matched (k + 1) m r
      | .failed n => .failed (n + 1)

/- ## Scenario Runner (spec 4.4)

Modelled from the spec: `run` executes an ordered list of exact-line
expectation steps strictly in order, stopping at the first failure with the
failing step's index and the diagnostic line count, and passing when every
step matched.  The result also records the part of the stream the engine
never read (the session's unread remainder when it is closed). -/

inductive ScenarioOutcome where
  | pass
  | fail (idx : Nat) (seen : Nat)
deriving DecidableEq

structure RunResult where
  outcome : ScenarioOutcome
  remaining : List Line
deriving DecidableEq

def runFrom (idx : Nat) (steps : List Line) (stream : List Line) : RunResult :=
  match steps with
  | [] => ⟨.pass, stream⟩
  | e :: es =>
    match awaitExpectation e stream with
    | .matched _ _ rest => runFrom (idx + 1) es rest
    | .failed n => ⟨.fail idx n, []⟩

def run (stream steps : List Line) : RunResult := runFrom 0 steps stream

/- ## The example scenario (src/examples/basic/pytest_esp_jrnl_example_basic.py)

The ordered exact-line expectations issued by `test_jrnl_example_basic`,
taken verbatim from the script. -/

/-- The single-quote character, U+0027. -/
def squote : Char := Char.ofNat 39

def readFileLine : Line :=
  chars "Read from file: " ++ [squote] ++ chars "Hello World!" ++ [squote]

def exampleSteps : List Line :=
  [ chars "Journaled FatFS mounted successfully."
  , chars "Opening file"
  , chars "File written"
  , chars "Renaming file"
  , chars "Reading file"
  , readFileLine
  , chars "Journaled FatFS unmounted."
  ]

/-- The stream fixture of the concrete example scenario: the same lines in
the same order. -/
def exampleStream : List Line := exampleSteps

/-- The example scenario as a function of the input stream. -/
def runExample (stream : List Line) : RunResult := run stream exampleSteps

/- ## Unity Result Parser (spec 4.3, 6)

Modelled from the spec: the parser is a state machine over the decoded
lines.  A line matching the per-test record pattern
`<file>:<line>:<test-name>:<STATUS>[:<message>]` appends a Unity Test
Record; a line matching the summary pattern
`<N> Tests <M> Failures <K> Ignored` ends the scan; any other line is
ignored.  At the summary the count invariant `N = number of collected
records` is checked: a violation is a parse error, not a silent
correction.  If the stream runs out before a summary, the collected
records are surfaced as a timeout result. -/

/-- Decimal digit character for `n < 10`. -/
def digitChar (n : Nat) : Char := Char.ofNat (48 + n)

/-- Decimal rendering of a positive number `n ≤ fuel` (empty for `0`);
`fuel` only bounds the recursion depth. -/
def renderNatFuel : Nat → Nat → List Char
  | 0, _ => []
  | fuel + 1, n =>
    if n = 0 then [] else renderNatFuel fuel (n / 10) ++ [digitChar (n % 10)]

/-- Decimal rendering of a natural number. -/
def renderNat (n : Nat) : List Char := if n = 0 then ['0'] else renderNatFuel n n

/-- Value of a decimal digit character, if it is one. -/
def charDigit (c : Char) : Option Nat :=
  if '0' ≤ c ∧ c ≤ '9' then some (c.toNat - 48) else none

def parseNatAcc (acc : Nat) : List Char → Option Nat
  | [] => some acc
  | c :: cs =>
    match charDigit c with
    | some d => parseNatAcc (acc * 10 + d) cs
    | none => none

/-- Parse a nonempty all-digit token as a decimal natural number. -/
def parseNat : List Char → Option Nat
  | [] => none
  | c :: cs => parseNatAcc 0 (c :: cs)

/-- Split a character list at a separator character, keeping empty tokens:
the first component is the token before the first separator, the second the
remaining tokens. -/
def splitOnCharP (c : Char) : List Char → List Char × List (List Char)
  | [] => ([], [])
  | x :: xs =>
    let r := splitOnCharP c xs
    if x = c then ([], r.1 :: r.2) else (x :: r.1, r.2)

def splitOnChar (c : Char) (l : List Char) : List (List Char) :=
  (splitOnCharP c l).1 :: (splitOnCharP c l).2

/-- Join tokens with a separator character (inverse of `splitOnChar` for
separator-free tokens). -/
def joinSep (c : Char) : List (List Char) → List Char
  | [] => []
  | [t] => t
  | t :: ts => t ++ c :: joinSep c ts

/-- One line of the structured unity result block. -/
inductive Status where
  | pass
  | fail
  | ignore
deriving DecidableEq

structure UnityRecord where
  file : Line
  lineNo : Nat
  name : Line
  status : Status
  message : Option Line
deriving DecidableEq

def parseStatus (t : List Char) : Option Status :=
  if t = chars "PASS" then some .pass
  else if t = chars "FAIL" then some .fail
  else if t = chars "IGNORE" then some .ignore
  else none

def renderStatus : Status → List Char
  | .pass => chars "PASS"
  | .fail => chars "FAIL"
  | .ignore => chars "IGNORE"

/-- Modelled from the spec: parse one per-test record line
`<file>:<line>:<test-name>:<STATUS>[:<message>]`. -/
def parseRecord (l : Line) : Option UnityRecord :=
  match splitOnChar ':' l with
  | file :: num :: name :: st :: rest =>
    match parseNat num, parseStatus st with
    | some n, some s =>
      match rest with
      | [] => some ⟨file, n, name, s, none⟩
      | _ :: _ => some ⟨file, n, name, s, some (joinSep ':' rest)⟩
    | _, _ => none
  | _ => none

/-- Modelled from the spec: parse the summary line
`<N> Tests <M> Failures <K> Ignored`. -/
def parseSummary (l : Line) : Option (Nat × Nat × Nat) :=
  match splitOnChar ' ' l with
  | [n, t1, m, t2, k, t3] =>
    if t1 = chars "Tests" ∧ t2 = chars "Failures" ∧ t3 = chars "Ignored" then
      match parseNat n, parseNat m, parseNat k with
      | some a, some b, some c => some (a, b, c)
      | _, _, _ => none
    else none
  | _ => none

/-- Wire-format rendering of a unity record line. -/
def renderRecord (r : UnityRecord) : Line :=
  joinSep ':'
    ([r.file, renderNat r.lineNo, r.name, renderStatus r.status] ++
      (match r.message with | none => [] | some m => [m]))

/-- Wire-format rendering of a unity summary line. -/
def renderSummary (n m k : Nat) : Line :=
  joinSep ' '
    [renderNat n, chars "Tests", renderNat m, chars "Failures",
     renderNat k, chars "Ignored"]

structure UnitySummary where
  tests : Nat
  failures : Nat
  ignored : Nat
  records : List UnityRecord
deriving DecidableEq

/-- The records of a summary whose status is FAIL. -/
def UnitySummary.failedRecords (s : UnitySummary) : List UnityRecord :=
  s.records.filter (fun r => decide (r.status = .fail))

/-- Modelled from the spec: at `DONE` the verdict is fail iff the declared
failure count `M` is positive. -/
def UnitySummary.verdictFail (s : UnitySummary) : Bool := decide (0 < s.failures)

inductive UnityOutcome where
  | done (s : UnitySummary) (rest : List Line)
  | timedOut (collected : List UnityRecord)
  | parseError (collected : List UnityRecord)
deriving DecidableEq

/-- Modelled from the spec: `await_unity_result` as a fold over the decoded
lines — collect record lines, ignore unrelated lines, stop at the summary
line (checking the count invariant there), and report a timeout with the
partial records if the stream runs out first. -/
def awaitUnity (acc : List UnityRecord) : List Line → UnityOutcome
  | [] => .timedOut acc
  | l :: ls =>
    match parseSummary l with
    | some (n, m, k) =>
      if n = acc.length then .done ⟨n, m, k, acc⟩ ls else .parseError acc
    | none =>
      match parseRecord l with
      | some r => awaitUnity (acc ++ [r]) ls
      | none => awaitUnity acc ls

/-- The unity scenario (src/test_apps/jrnl_basic/pytest_esp_jrnl_basic.py):
`test_jrnl_basic` issues one `expect_unity_test_output` call. -/
def unityScenario (stream : List Line) : UnityOutcome := awaitUnity [] stream

/- ## Line Reader session (spec 3, 4.1)

Modelled from the spec: a Device Session holds the not-yet-read input (as
timed chunks of decoded characters: arrival instant and content) and the
accumulated-but-unconsumed buffer.  `nextLine` returns the first complete
line of the buffer (terminator included); otherwise it appends chunks that
arrive before the absolute deadline and retries; a chunk arriving only
after the deadline means `timeout` (buffered partial data kept); an
exhausted stream with no complete line means end-of-stream, the trailing
partial fragment being discarded, not reported as a line. -/

structure Session where
  pending : List (Nat × Line)
  buffer : Line
deriving DecidableEq

/-- First complete line of a buffer: the prefix up to and including the
first `'\n'`, and the rest. -/
def splitFirstLine : List Char → Option (List Char × List Char)
  | [] => none
  | c :: cs =>
    if c = '\n' then some ([c], cs)
    else
      match splitFirstLine cs with
      | some (l, r) => some (c :: l, r)
      | none => none

inductive ReadResult where
  | line (l : Line) (s : Session)
  | eos (s : Session)
  | timedOut (s : Session)
deriving DecidableEq

def fillAndRead (buffer : Line) (pending : List (Nat × Line)) (deadline : Nat) :
    ReadResult :=
  match pending with
  | [] =>
    match splitFirstLine buffer with
    | some (l, rest) => .line l ⟨[], rest⟩
    | none => .eos ⟨[], []⟩
  | (t, chunk) :: ps =>
    match splitFirstLine buffer with
    | some (l, rest) => .line l ⟨(t, chunk) :: ps, rest⟩
    | none =>
      if t ≤ deadline then fillAndRead (buffer ++ chunk) ps deadline
      else .timedOut ⟨(t, chunk) :: ps, buffer⟩

/-- Modelled from the spec: `next_line(deadline)` of the Line Reader. -/
def nextLine (s : Session) (deadline : Nat) : ReadResult :=
  fillAndRead s.buffer s.pending deadline

/- ## Basic lemmas about the Expectation Matcher and the Scenario Runner -/

theorem matchesExact_iff (l lit : Line) :
    matchesExact l lit = true ↔ stripTerminator l = lit := by
  simp [matchesExact]

theorem awaitExpectation_cons_match {l lit : Line} (ls : List Line)
    (h : matchesExact l lit = true) :
    awaitExpectation lit (l :: ls) = .matched 0 l ls := by
  simp [awaitExpectation, h]

/-- Skipping a non-matching head line: the run over the rest of the stream is
the same, except that a failure at the current first step counts one more
seen line in its diagnostic payload. -/
theorem awaitExpectation_cons_skip {l lit : Line} (ls : List Line)
    (h : matchesExact l lit = false) :
    awaitExpectation lit (l :: ls) =
      match awaitExpectation lit ls with
      | .matched k m r => .matched (k + 1) m r
      | .failed n => .failed (n + 1) := by
  simp [awaitExpectation, h]

theorem runFrom_cons (idx : Nat) (e : Line) (es : List Line) (stream : List Line) :
    runFrom idx (e :: es) stream =
      match awaitExpectation e stream with
      | .matched _ _ rest => runFrom (idx + 1) es rest
      | .failed n => ⟨.fail idx n, []⟩ := rfl

theorem runFrom_skip (idx : Nat) (e : Line) (es : List Line) (l : Line)
    (s : List Line) (h : matchesExact l e = false) :
    runFrom idx (e :: es) (l :: s) = runFrom idx (e :: es) s ∨
    ∃ n, runFrom idx (e :: es) s = ⟨.fail idx n, []⟩ ∧
      runFrom idx (e :: es) (l :: s) = ⟨.fail idx (n + 1), []⟩ := by
  cases haw : awaitExpectation e s with
  | matched k m r =>
    left
    simp [runFrom, awaitExpectation, h, haw]
  | failed n =>
    right
    refine ⟨n, by simp [runFrom, haw], ?_⟩
    simp [runFrom, awaitExpectation, h, haw]

theorem runFrom_skip_pass_iff (idx : Nat) (e : Line) (es : List Line) (l : Line)
    (s : List Line) (h : matchesExact l e = false) :
    (runFrom idx (e :: es) (l :: s)).outcome = .pass ↔
      (runFrom idx (e :: es) s).outcome = .pass := by
  rcases runFrom_skip idx e es l s h with heq | ⟨n, h1, h2⟩
  · rw [heq]
  · rw [h1, h2]
    constructor <;> intro hc <;> cases hc

theorem runFrom_pass_of_sublist :
    ∀ (stream steps : List Line) (idx : Nat),
      List.Sublist steps (stream.map stripTerminator) →
      (runFrom idx steps stream).outcome = .pass := by
  intro stream
  induction stream with
  | nil =>
    intro steps idx h
    rw [List.map_nil, List.sublist_nil] at h
    subst h
    rfl
  | cons l ls ih =>
    intro steps idx h
    cases steps with
    | nil => rfl
    | cons e es =>
      rw [List.map_cons] at h
      by_cases hm : matchesExact l e = true
      · rw [show runFrom idx (e :: es) (l :: ls) = runFrom (idx + 1) es ls by
          simp [runFrom, awaitExpectation_cons_match ls hm]]
        apply ih es (idx + 1)
        cases h with
        | cons _ h2 => exact List.sublist_of_cons_sublist h2
        | cons₂ _ h2 => exact h2
      · have hm2 : matchesExact l e = false := by simpa using hm
        rw [runFrom_skip_pass_iff idx e es l ls hm2]
        apply ih (e :: es) idx
        cases h with
        | cons _ h2 => exact h2
        | cons₂ _ h2 =>
          exfalso
          rw [matchesExact_iff] at hm
          exact hm rfl

theorem sublist_of_runFrom_pass :
    ∀ (stream steps : List Line) (idx : Nat),
      (runFrom idx steps stream).outcome = .pass →
      List.Sublist steps (stream.map stripTerminator) := by
  intro stream
  induction stream with
  | nil =>
    intro steps idx h
    cases steps with
    | nil => exact List.Sublist.refl _
    | cons e es => simp [runFrom, awaitExpectation] at h
  | cons l ls ih =>
    intro steps idx h
    cases steps with
    | nil => exact List.nil_sublist _
    | cons e es =>
      rw [List.map_cons]
      by_cases hm : matchesExact l e = true
      · rw [show runFrom idx (e :: es) (l :: ls) = runFrom (idx + 1) es ls by
          simp [runFrom, awaitExpectation_cons_match ls hm]] at h
        have h2 := ih es (idx + 1) h
        have he : stripTerminator l = e := (matchesExact_iff l e).mp hm
        rw [← he]
        exact List.Sublist.cons₂ _ h2
      · have hm2 : matchesExact l e = false := by simpa using hm
        rw [runFrom_skip_pass_iff idx e es l ls hm2] at h
        exact List.Sublist.cons _ (ih (e :: es) idx h)

theorem awaitExpectation_matched_decomp :
    ∀ (stream : List Line) (lit : Line) (k : Nat) (m : Line) (rest : List Line),
      awaitExpectation lit stream = .matched k m rest →
      ∃ pre, stream = pre ++ m :: rest ∧ pre.length = k ∧
        (∀ x ∈ pre, matchesExact x lit = false) ∧ matchesExact m lit = true := by
  intro stream
  induction stream with
  | nil => intro lit k m rest h; simp [awaitExpectation] at h
  | cons l ls ih =>
    intro lit k m rest h
    by_cases hm : matchesExact l lit = true
    · rw [awaitExpectation_cons_match ls hm] at h
      rw [MatchResult.matched.injEq] at h
      obtain ⟨hk, hml, hr⟩ := h
      subst hk; subst hml; subst hr
      exact ⟨[], rfl, rfl, fun x hx => absurd hx (List.not_mem_nil x), hm⟩
    · have hm2 : matchesExact l lit = false := by simpa using hm
      rw [awaitExpectation_cons_skip ls hm2] at h
      cases haw : awaitExpectation lit ls with
      | matched k2 m2 r2 =>
        rw [haw, MatchResult.matched.injEq] at h
        obtain ⟨hk, hml, hr⟩ := h
        subst hk; subst hml; subst hr
        obtain ⟨pre, hdec, hlen, hall, hmm⟩ := ih lit k2 m2 r2 haw
        refine ⟨l :: pre, ?_, ?_, ?_, hmm⟩
        · rw [List.cons_append, hdec]
        · rw [List.length_cons, hlen]
        · intro x hx
          rcases List.mem_cons.mp hx with hx | hx
          · subst hx; exact hm2
          · exact hall x hx
      | failed n => rw [haw] at h; cases h

theorem awaitExpectation_failed_of_none :
    ∀ (stream : List Line) (lit : Line),
      (∀ x ∈ stream, matchesExact x lit = false) →
      awaitExpectation lit stream = .failed stream.length := by
  intro stream
  induction stream with
  | nil => intro lit _; rfl
  | cons l ls ih =>
    intro lit h
    have hl : matchesExact l lit = false := h l (List.mem_cons_self l ls)
    have hls := ih lit fun x hx => h x (List.mem_cons_of_mem l hx)
    simp [awaitExpectation, hl, hls]

theorem awaitExpectation_append :
    ∀ (s : List Line) (lit : Line) (k : Nat) (m : Line) (r : List Line),
      awaitExpectation lit s = .matched k m r →
      ∀ t, awaitExpectation lit (s ++ t) = .matched k m (r ++ t) := by
  intro s
  induction s with
  | nil => intro lit k m r h; simp [awaitExpectation] at h
  | cons l ls ih =>
    intro lit k m r h t
    by_cases hm : matchesExact l lit = true
    · rw [awaitExpectation_cons_match ls hm, MatchResult.matched.injEq] at h
      obtain ⟨hk, hml, hr⟩ := h
      subst hk; subst hml; subst hr
      rw [List.cons_append]
      exact awaitExpectation_cons_match _ hm
    · have hm2 : matchesExact l lit = false := by simpa using hm
      rw [awaitExpectation_cons_skip ls hm2] at h
      cases haw : awaitExpectation lit ls with
      | matched k2 m2 r2 =>
        rw [haw, MatchResult.matched.injEq] at h
        obtain ⟨hk, hml, hr⟩ := h
        subst hk; subst hml; subst hr
        rw [List.cons_append, awaitExpectation_cons_skip (ls ++ t) hm2,
          ih lit k2 m2 r2 haw t]
      | failed n => rw [haw] at h; cases h

theorem runFrom_append_of_pass :
    ∀ (steps stream rem : List Line) (idx : Nat),
      runFrom idx steps stream = ⟨.pass, rem⟩ →
      ∀ t, runFrom idx steps (stream ++ t) = ⟨.pass, rem ++ t⟩ := by
  intro steps
  induction steps with
  | nil =>
    intro stream rem idx h t
    rw [show runFrom idx [] stream = ⟨.pass, stream⟩ from rfl,
      RunResult.mk.injEq] at h
    rw [show runFrom idx [] (stream ++ t) = ⟨.pass, stream ++ t⟩ from rfl, h.2]
  | cons e es ih =>
    intro stream rem idx h t
    cases haw : awaitExpectation e stream with
    | matched k m r =>
      rw [show runFrom idx (e :: es) stream =
            runFrom (idx + 1) es r by simp [runFrom, haw]] at h
      have := awaitExpectation_append stream e k m r haw t
      rw [show runFrom idx (e :: es) (stream ++ t) =
            runFrom (idx + 1) es (r ++ t) by simp [runFrom, this]]
      exact ih r rem (idx + 1) h t
    | failed n =>
      rw [show runFrom idx (e :: es) stream = ⟨.fail idx n, []⟩ by
            simp [runFrom, haw], RunResult.mk.injEq] at h
      cases h.1

/-- When a prefix of the steps can be matched in order and the literal of
step `i` never occurs in the stream, the run fails exactly at step `i`, and
the failing step reads the stream to its end (the returned unread remainder
is empty). -/
theorem runFrom_fail_at_first_missing :
    ∀ (stream steps : List Line) (idx i : Nat) (hi : i < steps.length),
      List.Sublist (steps.take i) (stream.map stripTerminator) →
      (∀ l ∈ stream, stripTerminator l ≠ steps.get ⟨i, hi⟩) →
      ∃ n, runFrom idx steps stream = ⟨.fail (idx + i) n, []⟩ := by
  intro stream
  induction stream with
  | nil =>
    intro steps idx i hi hpre hmiss
    rw [List.map_nil, List.sublist_nil] at hpre
    have hi0 : i = 0 := by
      rcases List.take_eq_nil_iff.mp hpre with h | h
      · exact h
      · exfalso; rw [h] at hi; exact Nat.not_lt_zero i hi
    subst hi0
    cases steps with
    | nil => cases hi
    | cons e es => exact ⟨0, by simp [runFrom, awaitExpectation]⟩
  | cons l ls ih =>
    intro steps idx i hi hpre hmiss
    cases steps with
    | nil => cases hi
    | cons e es =>
      cases i with
      | zero =>
        have hmiss0 : ∀ x ∈ l :: ls, matchesExact x e = false := by
          intro x hx
          have hne := hmiss x hx
          simp only [matchesExact, decide_eq_false_iff_not]
          exact hne
        have haw := awaitExpectation_failed_of_none (l :: ls) e hmiss0
        exact ⟨(l :: ls).length, by simp [runFrom_cons, haw]⟩
      | succ i2 =>
        have hi2 : i2 < es.length := Nat.lt_of_succ_lt_succ hi
        rw [List.map_cons, List.take_succ_cons] at hpre
        by_cases hm : matchesExact l e = true
        · have hrw : runFrom idx (e :: es) (l :: ls) = runFrom (idx + 1) es ls := by
            rw [runFrom_cons, awaitExpectation_cons_match ls hm]
          have hpre2 : List.Sublist (es.take i2) (ls.map stripTerminator) := by
            cases hpre with
            | cons _ h2 => exact List.sublist_of_cons_sublist h2
            | cons₂ _ h2 => exact h2
          have hmiss2 : ∀ x ∈ ls, stripTerminator x ≠ es.get ⟨i2, hi2⟩ := by
            intro x hx
            exact hmiss x (List.mem_cons_of_mem l hx)
          obtain ⟨n, hn⟩ := ih es (idx + 1) i2 hi2 hpre2 hmiss2
          refine ⟨n, ?_⟩
          rw [hrw, hn]
          have : idx + 1 + i2 = idx + (i2 + 1) := by omega
          rw [this]
        · have hm2 : matchesExact l e = false := by simpa using hm
          have hpre2 :
              List.Sublist ((e :: es).take (i2 + 1)) (ls.map stripTerminator) := by
            rw [List.take_succ_cons]
            cases hpre with
            | cons _ h2 => exact h2
            | cons₂ _ h2 =>
              exfalso; rw [matchesExact_iff] at hm; exact hm rfl
          have hmiss2 : ∀ x ∈ ls, stripTerminator x ≠ (e :: es).get ⟨i2 + 1, hi⟩ :=
            fun x hx => hmiss x (List.mem_cons_of_mem l hx)
          obtain ⟨n, hn⟩ := ih (e :: es) idx (i2 + 1) hi hpre2 hmiss2
          rcases runFrom_skip idx e es l ls hm2 with heq | ⟨n2, h1, h2⟩
          · exact ⟨n, by rw [heq, hn]⟩
          · exfalso
            rw [hn, RunResult.mk.injEq, ScenarioOutcome.fail.injEq] at h1
            omega

/-- Swap the entries at positions `i` and `j` of a list of expectation
literals (the list unchanged when an index is out of range). -/
def swapAt (l : List Line) (i j : Nat) : List Line :=
  match l[i]?, l[j]? with
  | some a, some b => (l.set i b).set j a
  | _, _ => l

theorem mem_swapAt {x : Line} {l : List Line} {i j : Nat}
    (h : x ∈ swapAt l i j) : x ∈ l := by
  unfold swapAt at h
  cases hi : l[i]? with
  | none => simp only [hi] at h; exact h
  | some a =>
    cases hj : l[j]? with
    | none => simp only [hi, hj] at h; exact h
    | some b =>
      simp only [hi, hj] at h
      rcases List.mem_or_eq_of_mem_set h with h2 | h2
      · rcases List.mem_or_eq_of_mem_set h2 with h3 | h3
        · exact h3
        · subst h3; exact List.getElem?_mem hj
      · subst h2; exact List.getElem?_mem hi

/- ## Claim theorems for the example scenario -/

/-- C1: for every expectation list and input stream in which each expected
line appears (after terminator stripping) in the order of the list, the
Scenario Runner returns pass. -/
theorem run_pass_of_ordered (stream steps : List Line)
    (h : List.Sublist steps (stream.map stripTerminator)) :
    (run stream steps).outcome = .pass :=
  runFrom_pass_of_sublist stream steps 0 h

/-- C1 witness: the concrete example scenario — the seven lines of the
basic example, matched against the same ordered literal list, pass. -/
theorem run_pass_of_ordered_witness :
    List.Sublist exampleSteps (exampleStream.map stripTerminator) ∧
      (run exampleStream exampleSteps).outcome = .pass :=
  ⟨by decide, run_pass_of_ordered exampleStream exampleSteps (by decide)⟩

/-- The example stream with the line at index 3 (the Renaming file line)
removed. -/
def exampleStreamNoRename : List Line :=
  exampleStream.take 3 ++ exampleStream.drop 4

/-- C2 counterexample: on the concrete example with the Renaming file line
removed, the run does fail at step index 3, but only after the failing
step has read the stream to its very end — the unread remainder is empty,
so the claim that the run fails without consuming the entire stream is
false on this input. -/
theorem run_fail_consumed_all_counterexample :
    runExample exampleStreamNoRename = ⟨.fail 3 3, []⟩ ∧
      (runExample exampleStreamNoRename).remaining = [] := by
  constructor <;> decide

/-- C2 (amended): when the first `i` steps can be matched in order and the
literal of step `i` is missing from the stream, `run` fails carrying index
`i` — the first unmet expectation — stopping there without executing later
steps; the failing step consumes the remaining stream entirely (the unread
remainder is empty). -/
theorem run_fail_first_missing (stream steps : List Line) (i : Nat)
    (hi : i < steps.length)
    (hpre : List.Sublist (steps.take i) (stream.map stripTerminator))
    (hmiss : ∀ l ∈ stream, stripTerminator l ≠ steps.get ⟨i, hi⟩) :
    ∃ n, run stream steps = ⟨.fail i n, []⟩ := by
  obtain ⟨n, hn⟩ := runFrom_fail_at_first_missing stream steps 0 i hi hpre hmiss
  rw [Nat.zero_add] at hn
  exact ⟨n, hn⟩

/-- C2 witness: removing the Renaming file line from the example stream
makes the example scenario fail at index 3 with nothing left unread. -/
theorem run_fail_first_missing_witness :
    ∃ n, run exampleStreamNoRename exampleSteps = ⟨.fail 3 n, []⟩ :=
  run_fail_first_missing exampleStreamNoRename exampleSteps 3
    (by decide) (by decide) (by decide)

/-- C3: if a stream passes an ordered expectation list but does not contain
the swapped list as an ordered sub-sequence (it matches only in the
original order), then running the swapped list fails, although every
literal of the swapped list still occurs somewhere in the stream. -/
theorem run_swap_order_fails (stream steps : List Line) (i j : Nat)
    (hij : i < j) (hj : j < steps.length)
    (hpass : (run stream steps).outcome = .pass)
    (honly : ¬ List.Sublist (swapAt steps i j) (stream.map stripTerminator)) :
    (∃ k n, (run stream (swapAt steps i j)).outcome = .fail k n) ∧
      ∀ lit ∈ swapAt steps i j, ∃ l ∈ stream, stripTerminator l = lit := by
  constructor
  · cases hout : (run stream (swapAt steps i j)).outcome with
    | pass =>
      exact absurd (sublist_of_runFrom_pass stream (swapAt steps i j) 0 hout) honly
    | fail k n => exact ⟨k, n, rfl⟩
  · intro lit hmem
    have h1 : lit ∈ steps := mem_swapAt hmem
    have h2 := sublist_of_runFrom_pass stream steps 0 hpass
    have h3 : lit ∈ stream.map stripTerminator := h2.subset h1
    rcases List.mem_map.mp h3 with ⟨l, hl, he⟩
    exact ⟨l, hl, he⟩

/-- C3 witness: swapping the Opening file and Renaming file expectations
(indices 1 and 3) makes the example scenario fail on the original stream,
though each literal still occurs in it. -/
theorem run_swap_order_fails_witness :
    (∃ k n, (run exampleStream (swapAt exampleSteps 1 3)).outcome = .fail k n) ∧
      ∀ lit ∈ swapAt exampleSteps 1 3, ∃ l ∈ exampleStream, stripTerminator l = lit :=
  run_swap_order_fails exampleStream exampleSteps 1 3
    (by decide) (by decide) (by decide) (by decide)

/-- C4: strict consumption — a successful wait decomposes the stream into
the skipped non-matching lines, the matched line, and the rest; the session
continues with exactly the rest, so every line read during this wait
(skipped or matched) is gone, and a later expectation can only ever match
within the rest. -/
theorem await_strict_consumption (lit : Line) (stream : List Line) (k : Nat)
    (m : Line) (rest : List Line)
    (h : awaitExpectation lit stream = .matched k m rest) :
    ∃ pre, stream = pre ++ m :: rest ∧ pre.length = k ∧
      (∀ x ∈ pre, matchesExact x lit = false) ∧ matchesExact m lit = true :=
  awaitExpectation_matched_decomp stream lit k m rest h

/-- C4 witness: waiting for the literal b on the stream a, b, c skips one
line, matches b, and leaves exactly the suffix c for later expectations. -/
theorem await_strict_consumption_witness :
    awaitExpectation (chars "b") [chars "a", chars "b", chars "c"] =
      .matched 1 (chars "b") [chars "c"] ∧
    ∃ pre, ([chars "a", chars "b", chars "c"] : List Line) =
        pre ++ chars "b" :: [chars "c"] ∧ pre.length = 1 ∧
      (∀ x ∈ pre, matchesExact x (chars "b") = false) ∧
      matchesExact (chars "b") (chars "b") = true :=
  ⟨by decide, await_strict_consumption (chars "b") [chars "a", chars "b", chars "c"]
    1 (chars "b") [chars "c"] (by decide)⟩

/-- C5: the exact-line predicate holds iff the line with only its
terminator stripped equals the literal byte for byte; and stripping removes
nothing but a final LF, CRLF or CR — every line is its stripped form
followed by one of those terminators or nothing, so interior content is
preserved exactly and no other normalization happens. -/
theorem exact_line_predicate (line lit : Line) :
    (matchesExact line lit = true ↔ stripTerminator line = lit) ∧
    ∃ t, (t = [] ∨ t = ['\n'] ∨ t = ['\r', '\n'] ∨ t = ['\r']) ∧
      line = stripTerminator line ++ t := by
  constructor
  · simp [matchesExact]
  · rcases hr : line.reverse with _ | ⟨c, cs⟩
    · refine ⟨[], Or.inl rfl, ?_⟩
      have h0 : line = [] := by
        have := congrArg List.reverse hr
        simpa using this
      rw [h0]; rfl
    · have hline : line = cs.reverse ++ [c] := by
        have := congrArg List.reverse hr
        simpa using this
      by_cases h1 : c = '\n'
      · subst h1
        rcases cs with _ | ⟨c2, cs2⟩
        · refine ⟨['\n'], by simp, ?_⟩
          simp only [stripTerminator]
          rw [hr]
          simp only [dropTermRev, if_pos rfl]
          rw [hline]
          simp
        · by_cases h2 : c2 = '\r'
          · subst h2
            refine ⟨['\r', '\n'], by simp, ?_⟩
            simp only [stripTerminator]
            rw [hr]
            simp only [dropTermRev, if_pos rfl]
            rw [hline]
            simp
          · refine ⟨['\n'], by simp, ?_⟩
            simp only [stripTerminator]
            rw [hr]
            simp only [dropTermRev, if_pos rfl, if_neg h2]
            rw [hline]
            simp
      · by_cases h3 : c = '\r'
        · subst h3
          refine ⟨['\r'], by simp, ?_⟩
          simp only [stripTerminator]
          rw [hr]
          have hnl : ('\r' : Char) ≠ '\n' := by decide
          simp only [dropTermRev, if_neg hnl, if_pos rfl]
          rw [hline]
          simp
        · refine ⟨[], by simp, ?_⟩
          simp only [stripTerminator]
          rw [hr]
          simp only [dropTermRev, if_neg h1, if_neg h3]
          rw [← hr, List.reverse_reverse, List.append_nil]

/-- C9: the two scenarios issue fixed sequences of expectation calls with
fixed literal payloads and depend on nothing but the input stream, so two
runs over identical streams produce identical outcomes. -/
theorem scenario_deterministic (s1 s2 : List Line) (h : s1 = s2) :
    runExample s1 = runExample s2 ∧ unityScenario s1 = unityScenario s2 := by
  subst h; exact ⟨rfl, rfl⟩

/-- C9 witness at the concrete example stream. -/
theorem scenario_deterministic_witness :
    runExample exampleStream = runExample exampleStream ∧
      unityScenario exampleStream = unityScenario exampleStream :=
  scenario_deterministic exampleStream exampleStream rfl

/-- C10: if the example scenario passes on a stream, it still passes after
appending arbitrary extra lines, and those extra lines end up wholly in the
unread remainder — the scenario returns at its last match and never
inspects trailing stream content. -/
theorem run_example_pass_suffix (stream extra : List Line)
    (h : (runExample stream).outcome = .pass) :
    (runExample (stream ++ extra)).outcome = .pass ∧
      (runExample (stream ++ extra)).remaining =
        (runExample stream).remaining ++ extra := by
  have hmk : runFrom 0 exampleSteps stream = ⟨.pass, (runExample stream).remaining⟩ := by
    cases hre : runExample stream with
    | mk o r =>
      have ho : o = .pass := by rw [hre] at h; exact h
      subst ho
      exact hre
  have happ := runFrom_append_of_pass exampleSteps stream
    (runExample stream).remaining 0 hmk extra
  constructor
  · rw [show runExample (stream ++ extra) =
      runFrom 0 exampleSteps (stream ++ extra) from rfl, happ]
  · rw [show runExample (stream ++ extra) =
      runFrom 0 exampleSteps (stream ++ extra) from rfl, happ]

/-- C10 witness: appending a trailing line to the passing example stream
keeps the pass and leaves the trailing line unread. -/
theorem run_example_pass_suffix_witness :
    (runExample (exampleStream ++ [chars "trailing"])).outcome = .pass ∧
      (runExample (exampleStream ++ [chars "trailing"])).remaining =
        (runExample exampleStream).remaining ++ [chars "trailing"] :=
  run_example_pass_suffix exampleStream [chars "trailing"] (by decide)

/- ## Lemmas about decimal rendering and parsing -/

theorem charDigit_digitChar (m : Nat) (h : m < 10) :
    charDigit (digitChar m) = some m := by
  interval_cases m <;> decide

theorem digitChar_ne (m : Nat) (h : m < 10) :
    digitChar m ≠ ':' ∧ digitChar m ≠ ' ' := by
  interval_cases m <;> exact ⟨by decide, by decide⟩

theorem parseNatAcc_append (l1 l2 : List Char) :
    ∀ a b, parseNatAcc a l1 = some b →
      parseNatAcc a (l1 ++ l2) = parseNatAcc b l2 := by
  induction l1 with
  | nil =>
    intro a b h
    rw [show parseNatAcc a [] = some a from rfl, Option.some.injEq] at h
    rw [List.nil_append, h]
  | cons c cs ih =>
    intro a b h
    rw [List.cons_append]
    cases hc : charDigit c with
    | none => simp [parseNatAcc, hc] at h
    | some d =>
      simp only [parseNatAcc, hc] at h ⊢
      exact ih (a * 10 + d) b h

theorem parseNatAcc_renderNatFuel :
    ∀ (fuel n : Nat), n ≤ fuel → ∀ a,
      parseNatAcc a (renderNatFuel fuel n) =
        some (a * 10 ^ (renderNatFuel fuel n).length + n) := by
  intro fuel
  induction fuel with
  | zero =>
    intro n hn a
    have h0 : n = 0 := Nat.le_zero.mp hn
    subst h0
    simp [renderNatFuel, parseNatAcc]
  | succ fuel ih =>
    intro n hn a
    by_cases h0 : n = 0
    · subst h0
      simp [renderNatFuel, parseNatAcc]
    · have hdiv : n / 10 ≤ fuel := by
        have h1 : n / 10 < n := Nat.div_lt_self (Nat.pos_of_ne_zero h0) (by decide)
        omega
      have hr : renderNatFuel (fuel + 1) n =
          renderNatFuel fuel (n / 10) ++ [digitChar (n % 10)] := by
        simp [renderNatFuel, h0]
      rw [hr]
      have hstep := ih (n / 10) hdiv a
      rw [parseNatAcc_append _ _ a _ hstep]
      have hd := charDigit_digitChar (n % 10) (Nat.mod_lt n (by decide))
      simp only [parseNatAcc, hd]
      rw [Option.some.injEq]
      rw [List.length_append, List.length_cons, List.length_nil]
      have hpow : 10 ^ ((renderNatFuel fuel (n / 10)).length + (0 + 1)) =
          10 ^ (renderNatFuel fuel (n / 10)).length * 10 := by
        rw [Nat.zero_add, Nat.pow_succ]
      rw [hpow]
      have hmod := Nat.div_add_mod n 10
      generalize (10 : Nat) ^ (renderNatFuel fuel (n / 10)).length = p
      have : a * (p * 10) = a * p * 10 := by rw [Nat.mul_assoc]
      rw [this]
      omega

theorem renderNatFuel_ne_nil (fuel n : Nat) (h0 : n ≠ 0) (hf : fuel ≠ 0) :
    renderNatFuel fuel n ≠ [] := by
  cases fuel with
  | zero => exact absurd rfl hf
  | succ f =>
    simp only [renderNatFuel, h0, if_false]
    exact List.append_ne_nil_of_right_ne_nil _ (List.cons_ne_nil _ _)

theorem parseNat_of_ne_nil (l : List Char) (h : l ≠ []) :
    parseNat l = parseNatAcc 0 l := by
  cases l with
  | nil => exact absurd rfl h
  | cons c cs => rfl

theorem parseNat_renderNat (n : Nat) : parseNat (renderNat n) = some n := by
  by_cases h0 : n = 0
  · subst h0; decide
  · have hr : renderNat n = renderNatFuel n n := by simp [renderNat, h0]
    rw [hr, parseNat_of_ne_nil _ (renderNatFuel_ne_nil n n h0 h0),
      parseNatAcc_renderNatFuel n n (Nat.le_refl n) 0]
    rw [Option.some.injEq, Nat.zero_mul, Nat.zero_add]

theorem renderNatFuel_digits :
    ∀ (fuel n : Nat) (c : Char), c ∈ renderNatFuel fuel n →
      ∃ m, m < 10 ∧ c = digitChar m := by
  intro fuel
  induction fuel with
  | zero => intro n c hc; cases hc
  | succ fuel ih =>
    intro n c hc
    by_cases h0 : n = 0
    · subst h0; cases hc
    · simp only [renderNatFuel, h0, if_false] at hc
      rcases List.mem_append.mp hc with hc | hc
      · exact ih (n / 10) c hc
      · rcases List.mem_singleton.mp hc with rfl
        exact ⟨n % 10, Nat.mod_lt n (by decide), rfl⟩

theorem renderNat_sep_free (n : Nat) :
    ':' ∉ renderNat n ∧ ' ' ∉ renderNat n := by
  by_cases h0 : n = 0
  · subst h0; exact ⟨by decide, by decide⟩
  · have hr : renderNat n = renderNatFuel n n := by simp [renderNat, h0]
    rw [hr]
    constructor
    · intro hc
      obtain ⟨m, hm, he⟩ := renderNatFuel_digits n n ':' hc
      exact (digitChar_ne m hm).1 he.symm
    · intro hc
      obtain ⟨m, hm, he⟩ := renderNatFuel_digits n n ' ' hc
      exact (digitChar_ne m hm).2 he.symm

/- ## Lemmas about splitting and joining -/

theorem splitOnCharP_no_sep (c : Char) :
    ∀ l : List Char, c ∉ l → splitOnCharP c l = (l, []) := by
  intro l
  induction l with
  | nil => intro _; rfl
  | cons x xs ih =>
    intro h
    have hx : x ≠ c := fun he => h (he ▸ List.mem_cons_self x xs)
    have hxs : c ∉ xs := fun hm => h (List.mem_cons_of_mem x hm)
    simp [splitOnCharP, hx, ih hxs]

theorem splitOnChar_no_sep (c : Char) (l : List Char) (h : c ∉ l) :
    splitOnChar c l = [l] := by
  simp [splitOnChar, splitOnCharP_no_sep c l h]

theorem splitOnCharP_sep (c : Char) :
    ∀ (a b : List Char), c ∉ a →
      splitOnCharP c (a ++ c :: b) =
        (a, (splitOnCharP c b).1 :: (splitOnCharP c b).2) := by
  intro a
  induction a with
  | nil => intro b _; simp [splitOnCharP]
  | cons x xs ih =>
    intro b h
    have hx : x ≠ c := fun he => h (he ▸ List.mem_cons_self x xs)
    have hxs : c ∉ xs := fun hm => h (List.mem_cons_of_mem x hm)
    simp [splitOnCharP, hx, ih b hxs]

theorem splitOnChar_sep (c : Char) (a b : List Char) (h : c ∉ a) :
    splitOnChar c (a ++ c :: b) = a :: splitOnChar c b := by
  simp [splitOnChar, splitOnCharP_sep c a b h]

theorem splitOnChar_joinSep (c : Char) :
    ∀ ts : List (List Char), ts ≠ [] → (∀ t ∈ ts, c ∉ t) →
      splitOnChar c (joinSep c ts) = ts := by
  intro ts
  induction ts with
  | nil => intro h _; exact absurd rfl h
  | cons t ts ih =>
    intro _ hfree
    cases ts with
    | nil =>
      rw [show joinSep c [t] = t from rfl]
      exact splitOnChar_no_sep c t (hfree t (List.mem_cons_self t []))
    | cons t2 ts2 =>
      rw [show joinSep c (t :: t2 :: ts2) = t ++ c :: joinSep c (t2 :: ts2) from rfl]
      rw [splitOnChar_sep c t _ (hfree t (List.mem_cons_self t _))]
      rw [ih (by simp) fun u hu => hfree u (List.mem_cons_of_mem t hu)]

theorem mem_joinSep (c : Char) :
    ∀ (ts : List (List Char)) (x : Char), x ∈ joinSep c ts →
      x = c ∨ ∃ t ∈ ts, x ∈ t := by
  intro ts
  induction ts with
  | nil => intro x hx; cases hx
  | cons t ts ih =>
    intro x hx
    cases ts with
    | nil =>
      right
      exact ⟨t, List.mem_cons_self t [], hx⟩
    | cons t2 ts2 =>
      rw [show joinSep c (t :: t2 :: ts2) = t ++ c :: joinSep c (t2 :: ts2) from rfl]
        at hx
      rcases List.mem_append.mp hx with hx | hx
      · exact Or.inr ⟨t, List.mem_cons_self t _, hx⟩
      · rcases List.mem_cons.mp hx with hx | hx
        · exact Or.inl hx
        · rcases ih x hx with hx | ⟨u, hu, hxu⟩
          · exact Or.inl hx
          · exact Or.inr ⟨u, List.mem_cons_of_mem t hu, hxu⟩

/- ## Synthetic unity records and the wire-format round trip -/

/-- A field that can appear verbatim inside a record line: free of the
colon field separator and of spaces. -/
def goodField (t : Line) : Prop := ':' ∉ t ∧ ' ' ∉ t

instance (t : Line) : Decidable (goodField t) := by
  unfold goodField; exact inferInstance

def goodMsg : Option Line → Prop
  | none => True
  | some m => goodField m

instance (o : Option Line) : Decidable (goodMsg o) := by
  cases o with
  | none => exact isTrue trivial
  | some m => unfold goodMsg; exact inferInstance

/-- A synthetic record whose fields survive rendering to a record line and
parsing back. -/
def validSynth (r : UnityRecord) : Prop :=
  goodField r.file ∧ goodField r.name ∧ goodMsg r.message

instance (r : UnityRecord) : Decidable (validSynth r) := by
  unfold validSynth; exact inferInstance

/-- Number of FAIL records in a list. -/
def failCount (recs : List UnityRecord) : Nat :=
  (recs.filter fun r => decide (r.status = Status.fail)).length

theorem renderStatus_sep_free (s : Status) :
    ':' ∉ renderStatus s ∧ ' ' ∉ renderStatus s := by
  cases s <;> exact ⟨by decide, by decide⟩

theorem parseStatus_renderStatus (s : Status) :
    parseStatus (renderStatus s) = some s := by
  cases s <;> decide

theorem parseRecord_renderRecord (r : UnityRecord) (h : validSynth r) :
    parseRecord (renderRecord r) = some r := by
  obtain ⟨file, lineNo, name, status, message⟩ := r
  obtain ⟨hfile, hname, hmsg⟩ := h
  cases message with
  | none =>
    have hsplit : splitOnChar ':' (renderRecord ⟨file, lineNo, name, status, none⟩) =
        [file, renderNat lineNo, name, renderStatus status] := by
      rw [show renderRecord ⟨file, lineNo, name, status, none⟩ =
          joinSep ':' [file, renderNat lineNo, name, renderStatus status] from rfl]
      apply splitOnChar_joinSep
      · simp
      · intro t ht
        simp only [List.mem_cons, List.not_mem_nil, or_false] at ht
        rcases ht with rfl | rfl | rfl | rfl
        · exact hfile.1
        · exact (renderNat_sep_free lineNo).1
        · exact hname.1
        · exact (renderStatus_sep_free status).1
    simp only [parseRecord, hsplit, parseNat_renderNat, parseStatus_renderStatus]
  | some m =>
    have hm : goodField m := hmsg
    have hsplit : splitOnChar ':' (renderRecord ⟨file, lineNo, name, status, some m⟩) =
        [file, renderNat lineNo, name, renderStatus status, m] := by
      rw [show renderRecord ⟨file, lineNo, name, status, some m⟩ =
          joinSep ':' [file, renderNat lineNo, name, renderStatus status, m] from rfl]
      apply splitOnChar_joinSep
      · simp
      · intro t ht
        simp only [List.mem_cons, List.not_mem_nil, or_false] at ht
        rcases ht with rfl | rfl | rfl | rfl | rfl
        · exact hfile.1
        · exact (renderNat_sep_free lineNo).1
        · exact hname.1
        · exact (renderStatus_sep_free status).1
        · exact hm.1
    simp only [parseRecord, hsplit, parseNat_renderNat, parseStatus_renderStatus]
    rfl

theorem renderRecord_no_space (r : UnityRecord) (h : validSynth r) :
    ' ' ∉ renderRecord r := by
  obtain ⟨file, lineNo, name, status, message⟩ := r
  obtain ⟨hfile, hname, hmsg⟩ := h
  intro hsp
  cases message with
  | none =>
    rcases mem_joinSep ':'
        [file, renderNat lineNo, name, renderStatus status] ' ' hsp with
      he | ⟨t, ht, hsp2⟩
    · exact absurd he (by decide)
    · simp only [List.mem_cons, List.not_mem_nil, or_false] at ht
      rcases ht with rfl | rfl | rfl | rfl
      · exact hfile.2 hsp2
      · exact (renderNat_sep_free lineNo).2 hsp2
      · exact hname.2 hsp2
      · exact (renderStatus_sep_free status).2 hsp2
  | some m =>
    rcases mem_joinSep ':'
        [file, renderNat lineNo, name, renderStatus status, m] ' ' hsp with
      he | ⟨t, ht, hsp2⟩
    · exact absurd he (by decide)
    · simp only [List.mem_cons, List.not_mem_nil, or_false] at ht
      rcases ht with rfl | rfl | rfl | rfl | rfl
      · exact hfile.2 hsp2
      · exact (renderNat_sep_free lineNo).2 hsp2
      · exact hname.2 hsp2
      · exact (renderStatus_sep_free status).2 hsp2
      · exact hmsg.2 hsp2

theorem record_not_summary (r : UnityRecord) (h : validSynth r) :
    parseSummary (renderRecord r) = none := by
  simp only [parseSummary, splitOnChar_no_sep ' ' _ (renderRecord_no_space r h)]

theorem parseSummary_renderSummary (n m k : Nat) :
    parseSummary (renderSummary n m k) = some (n, m, k) := by
  have hsplit : splitOnChar ' ' (renderSummary n m k) =
      [renderNat n, chars "Tests", renderNat m, chars "Failures",
       renderNat k, chars "Ignored"] := by
    rw [renderSummary]
    apply splitOnChar_joinSep
    · simp
    · intro t ht
      simp only [List.mem_cons, List.not_mem_nil, or_false] at ht
      rcases ht with rfl | rfl | rfl | rfl | rfl | rfl
      · exact (renderNat_sep_free n).2
      · decide
      · exact (renderNat_sep_free m).2
      · decide
      · exact (renderNat_sep_free k).2
      · decide
  simp [parseSummary, hsplit, parseNat_renderNat]

theorem awaitUnity_collect :
    ∀ (recs acc : List UnityRecord) (rest : List Line),
      (∀ r ∈ recs, validSynth r) →
      awaitUnity acc (recs.map renderRecord ++ rest) =
        awaitUnity (acc ++ recs) rest := by
  intro recs
  induction recs with
  | nil => intro acc rest _; simp
  | cons r rs ih =>
    intro acc rest hv
    have hvr := hv r (List.mem_cons_self r rs)
    have hs := record_not_summary r hvr
    have hr := parseRecord_renderRecord r hvr
    rw [List.map_cons, List.cons_append,
      show awaitUnity acc (renderRecord r :: (rs.map renderRecord ++ rest)) =
        awaitUnity (acc ++ [r]) (rs.map renderRecord ++ rest) by
          simp [awaitUnity, hs, hr],
      ih (acc ++ [r]) rest fun u hu => hv u (List.mem_cons_of_mem r hu)]
    rw [List.append_assoc, List.singleton_append]

/-- C6: for every list of synthetic records (N of them, f with status
FAIL) rendered as record lines and followed by the summary line declaring
N tests, f failures and 0 ignored, the unity wait reaches the summary with
exactly those records collected, its failed-record list has length f, and
the overall verdict is fail iff f is positive. -/
theorem unity_round_trip (recs : List UnityRecord)
    (hv : ∀ r ∈ recs, validSynth r) :
    awaitUnity []
        (recs.map renderRecord ++ [renderSummary recs.length (failCount recs) 0]) =
      .done ⟨recs.length, failCount recs, 0, recs⟩ [] ∧
    (UnitySummary.failedRecords ⟨recs.length, failCount recs, 0, recs⟩).length =
      failCount recs ∧
    (UnitySummary.verdictFail ⟨recs.length, failCount recs, 0, recs⟩ = true ↔
      0 < failCount recs) := by
  refine ⟨?_, rfl, ?_⟩
  · rw [awaitUnity_collect recs [] _ hv, List.nil_append]
    simp [awaitUnity, parseSummary_renderSummary]
  · simp [UnitySummary.verdictFail]

/-- C6 witness: the concrete unity scenario of the spec — records for
test_a (PASS) and test_b (FAIL with a message) and the summary line
2 Tests 1 Failures 0 Ignored — collects both records, reports one failed
record, and the verdict is fail. -/
theorem unity_round_trip_witness :
    awaitUnity []
        ([⟨chars "t.c", 10, chars "test_a", .pass, none⟩,
          ⟨chars "t.c", 20, chars "test_b", .fail, some (chars "assertion")⟩].map
            renderRecord ++ [renderSummary 2 1 0]) =
      .done ⟨2, 1, 0,
        [⟨chars "t.c", 10, chars "test_a", .pass, none⟩,
         ⟨chars "t.c", 20, chars "test_b", .fail, some (chars "assertion")⟩]⟩ [] ∧
    (UnitySummary.failedRecords ⟨2, 1, 0,
        [⟨chars "t.c", 10, chars "test_a", .pass, none⟩,
         ⟨chars "t.c", 20, chars "test_b", .fail, some (chars "assertion")⟩]⟩).length
      = 1 ∧
    (UnitySummary.verdictFail ⟨2, 1, 0,
        [⟨chars "t.c", 10, chars "test_a", .pass, none⟩,
         ⟨chars "t.c", 20, chars "test_b", .fail, some (chars "assertion")⟩]⟩ = true ↔
      0 < 1) :=
  unity_round_trip
    [⟨chars "t.c", 10, chars "test_a", .pass, none⟩,
     ⟨chars "t.c", 20, chars "test_b", .fail, some (chars "assertion")⟩]
    (by decide)

/-- C7: when the summary line declares a test count different from the
number of record lines actually collected, the unity wait reports a parse
error carrying the collected records — an outcome distinct from the summary
outcome (so never a best-effort or corrected summary) and from the timeout
outcome. -/
theorem unity_count_invariant (recs : List UnityRecord) (n m k : Nat)
    (hv : ∀ r ∈ recs, validSynth r) (hne : n ≠ recs.length) :
    awaitUnity [] (recs.map renderRecord ++ [renderSummary n m k]) =
      .parseError recs ∧
    (∀ s rest, UnityOutcome.parseError recs ≠ .done s rest) ∧
    (∀ c, UnityOutcome.parseError recs ≠ .timedOut c) := by
  refine ⟨?_, fun s rest => by simp, fun c => by simp⟩
  rw [awaitUnity_collect recs [] _ hv, List.nil_append]
  simp [awaitUnity, parseSummary_renderSummary, hne]

/-- C7 witness: one PASS record followed by a summary declaring 2 tests is
a parse error. -/
theorem unity_count_invariant_witness :
    awaitUnity []
        ([⟨chars "t.c", 10, chars "test_a", .pass, none⟩].map renderRecord ++
          [renderSummary 2 0 0]) =
      .parseError [⟨chars "t.c", 10, chars "test_a", .pass, none⟩] ∧
    (∀ s rest, UnityOutcome.parseError
        [(⟨chars "t.c", 10, chars "test_a", .pass, none⟩ : UnityRecord)] ≠
        .done s rest) ∧
    (∀ c, UnityOutcome.parseError
        [(⟨chars "t.c", 10, chars "test_a", .pass, none⟩ : UnityRecord)] ≠
        .timedOut c) :=
  unity_count_invariant [⟨chars "t.c", 10, chars "test_a", .pass, none⟩] 2 0 0
    (by decide) (by decide)

/-- C8: if no complete line is buffered and no new bytes arrive before the
absolute deadline (every pending chunk arrives only later), a timing-out
`nextLine` call leaves the session — in particular its buffer of
accumulated-but-unconsumed partial data — completely unchanged. -/
theorem nextLine_timeout_frame (s : Session) (deadline : Nat) (s2 : Session)
    (hlate : ∀ tc ∈ s.pending, deadline < tc.1)
    (h : nextLine s deadline = .timedOut s2) :
    s2 = s ∧ s2.buffer = s.buffer := by
  rw [nextLine] at h
  cases hp : s.pending with
  | nil =>
    rw [hp] at h
    simp only [fillAndRead] at h
    cases hsp : splitFirstLine s.buffer with
    | some p =>
      obtain ⟨l, rest⟩ := p
      rw [hsp] at h
      cases h
    | none => rw [hsp] at h; cases h
  | cons tc ps =>
    obtain ⟨t, chunk⟩ := tc
    rw [hp] at h
    simp only [fillAndRead] at h
    cases hsp : splitFirstLine s.buffer with
    | some p =>
      obtain ⟨l, rest⟩ := p
      rw [hsp] at h
      cases h
    | none =>
      rw [hsp] at h
      have hlt : deadline < t :=
        hlate (t, chunk) (by rw [hp]; exact List.mem_cons_self _ _)
      rw [if_neg (Nat.not_le_of_lt hlt)] at h
      rw [ReadResult.timedOut.injEq] at h
      have hs2 : s2 = s := by rw [← h, ← hp]
      exact ⟨hs2, by rw [hs2]⟩

/-- C8 witness: a session with a buffered partial line and one chunk
arriving at instant 10 times out against deadline 5 and is returned
unchanged. -/
theorem nextLine_timeout_frame_witness :
    (∀ tc ∈ ([(10, chars "x")] : List (Nat × Line)), 5 < tc.1) ∧
    nextLine ⟨[(10, chars "x")], chars "par"⟩ 5 =
      .timedOut ⟨[(10, chars "x")], chars "par"⟩ ∧
    ((⟨[(10, chars "x")], chars "par"⟩ : Session) =
        ⟨[(10, chars "x")], chars "par"⟩ ∧
      (⟨[(10, chars "x")], chars "par"⟩ : Session).buffer =
        (⟨[(10, chars "x")], chars "par"⟩ : Session).buffer) :=
  ⟨by decide, by decide,
    nextLine_timeout_frame ⟨[(10, chars "x")], chars "par"⟩ 5
      ⟨[(10, chars "x")], chars "par"⟩ (by decide) (by decide)⟩

/- ## Concrete evaluations of the embedded operations -/

example : matchesExact (chars "Opening file") (chars "Opening file") = true := by decide
example : stripTerminator (chars "abc" ++ ['\r', '\n']) = chars "abc" := by decide
example : (runExample exampleStream).outcome = .pass := by decide
example :
    runExample (exampleSteps.take 3 ++ exampleSteps.drop 4) =
      ⟨.fail 3 3, []⟩ := by decide
example : parseRecord (chars "t.c:10:test_a:PASS") =
    some ⟨chars "t.c", 10, chars "test_a", .pass, none⟩ := by decide
example : parseRecord (chars "t.c:20:test_b:FAIL:assertion") =
    some ⟨chars "t.c", 20, chars "test_b", .fail, some (chars "assertion")⟩ := by decide
example : parseSummary (chars "2 Tests 1 Failures 0 Ignored") = some (2, 1, 0) := by decide
example :
    unityScenario
      [chars "t.c:10:test_a:PASS", chars "t.c:20:test_b:FAIL:assertion",
       chars "2 Tests 1 Failures 0 Ignored"] =
    .done ⟨2, 1, 0,
      [⟨chars "t.c", 10, chars "test_a", .pass, none⟩,
       ⟨chars "t.c", 20, chars "test_b", .fail, some (chars "assertion")⟩]⟩ [] := by decide
example : nextLine ⟨[(10, chars "x")], chars "par"⟩ 5 =
    .timedOut ⟨[(10, chars "x")], chars "par"⟩ := by decide
example : nextLine ⟨[(3, ['a', '\n', 'b'])], chars "p"⟩ 5 =
    .line (chars "pa" ++ ['\n']) ⟨[], ['b']⟩ := by decide
